import Mathlib

/-
  Verification of the LZ77 decompressor in src/main.py.

  Byte sequences are modelled as `List Nat`.  Python sequence indexing is
  modelled faithfully: an index `i` with `0 ≤ i < len` reads position `i`,
  an index with `-len ≤ i < 0` wraps around and reads position `len + i`,
  and anything else raises IndexError (modelled as `Except.error`).
-/

namespace LZ77

inductive PyErr where
  | indexError
deriving DecidableEq

/-- Python `l[i]` for a non-negative index: value at `i`, IndexError if `i ≥ len l`. -/
def pyGetN (l : List Nat) (i : Nat) : Except PyErr Nat :=
  if i < l.length then .ok (l.getD i 0) else .error .indexError

/-- Python `l[i] = v` for a non-negative index. -/
def pySetN (l : List Nat) (i : Nat) (v : Nat) : Except PyErr (List Nat) :=
  if i < l.length then .ok (l.set i v) else .error .indexError

/-- Python `l[i]` for a possibly negative index: negative indices in
`[-len, 0)` wrap around to `len + i`; out-of-range raises IndexError. -/
def pyGet (l : List Nat) (i : Int) : Except PyErr Nat :=
  if 0 ≤ i then
    if i < (l.length : Int) then .ok (l.getD i.toNat 0) else .error .indexError
  else
    if -(l.length : Int) ≤ i then .ok (l.getD ((l.length : Int) + i).toNat 0)
    else .error .indexError

/-- `GetUncompressedSize` from src/main.py lines 11-20: reads the 24-bit
little-endian size at bytes 1-3; if it is zero, reads the 32-bit
little-endian size at bytes 4-7 and the token stream starts at 8 instead of 4. -/
def GetUncompressedSize (inData : List Nat) : Except PyErr (Nat × Nat) := do
  let b1 ← pyGetN inData 1
  let b2 ← pyGetN inData 2
  let b3 ← pyGetN inData 3
  let outSize := b1 ||| (b2 <<< 8) ||| (b3 <<< 16)
  if outSize = 0 then
    let c0 ← pyGetN inData 4
    let c1 ← pyGetN inData 5
    let c2 ← pyGetN inData 6
    let c3 ← pyGetN inData 7
    return (c0 ||| (c1 <<< 8) ||| (c2 <<< 16) ||| (c3 <<< 24), 8)
  else
    return (outSize, 4)

/-- Back-reference token decoding, src/main.py lines 44-67: reads the token
bytes starting at `offset` and returns `(pos, copylen, newOffset)`.
Note the source's branch structure: `first < 32` reads a third byte, and
inside that, `first >= 16` reads a fourth byte and uses the `+273` length
class, while `first < 16` uses the `+17` length class; `first >= 32` is the
two-byte class. -/
def readToken (inData : List Nat) (offset : Nat) : Except PyErr (Nat × Nat × Nat) := do
  let first ← pyGetN inData offset
  let second ← pyGetN inData (offset + 1)
  if first < 32 then
    let third ← pyGetN inData (offset + 2)
    if first ≥ 16 then
      let fourth ← pyGetN inData (offset + 3)
      let pos := (((third &&& 0xF) <<< 8) ||| fourth) + 1
      let copylen := ((second <<< 4) ||| ((first &&& 0xF) <<< 12) ||| (third >>> 4)) + 273
      return (pos, copylen, offset + 4)
    else
      let pos := (((second &&& 0xF) <<< 8) ||| third) + 1
      let copylen := (((first &&& 0xF) <<< 4) ||| (second >>> 4)) + 17
      return (pos, copylen, offset + 3)
  else
    let pos := (((first &&& 0xF) <<< 8) ||| second) + 1
    let copylen := (first >>> 4) + 1
    return (pos, copylen, offset + 2)

/-- The copy loop of src/main.py lines 69-71, iterating `y` upward with `n`
steps remaining: `outData[outIndex + y] = outData[outIndex - pos + y]`.
The read uses full Python indexing (negative wrap), the write a
non-negative index. -/
def copyAux (outIdx pos : Nat) : Nat → Nat → List Nat → Except PyErr (List Nat)
  | 0, _, buf => .ok buf
  | n + 1, y, buf => do
    let b ← pyGet buf ((outIdx : Int) - (pos : Int) + (y : Int))
    let buf2 ← pySetN buf (outIdx + y) b
    copyAux outIdx pos n (y + 1) buf2

/-- `for y in range(copylen): outData[outIndex + y] = outData[outIndex - pos + y]`. -/
def copyLoop (buf : List Nat) (outIdx pos copylen : Nat) : Except PyErr (List Nat) :=
  copyAux outIdx pos copylen 0 buf

/-- The inner flag-bit loop of src/main.py lines 39-77:
`for x in reversed(range(8))`, with `n` bits remaining (bit index `x = n - 1`).
Checks `outIndex >= outLength or offset >= inLength` before each token
(the `break`), then decodes a back-reference when the flag bit is set and a
literal otherwise.  Returns the updated `(outData, outIndex, offset)`. -/
def processBits (inData : List Nat) (inLength outLength flags : Nat) :
    Nat → List Nat → Nat → Nat → Except PyErr (List Nat × Nat × Nat)
  | 0, buf, outIdx, offset => .ok (buf, outIdx, offset)
  | n + 1, buf, outIdx, offset =>
    if outIdx ≥ outLength ∨ offset ≥ inLength then .ok (buf, outIdx, offset)
    else if flags &&& (1 <<< n) ≠ 0 then do
      let (pos, copylen, offset2) ← readToken inData offset
      let buf2 ← copyLoop buf outIdx pos copylen
      processBits inData inLength outLength flags n buf2 (outIdx + copylen) offset2
    else do
      let b ← pyGetN inData offset
      let buf2 ← pySetN buf outIdx b
      processBits inData inLength outLength flags n buf2 (outIdx + 1) (offset + 1)

/-- The outer decode loop of src/main.py lines 35-77:
`while outIndex < outLength and offset < inLength`, reading a flag byte and
processing its 8 bits.  Each iteration consumes at least the flag byte, so
any `fuel ≥ inLength - offset` is enough for the loop to run to completion;
`UncompressLZ77` passes `inLength`.  Returns the final `(outData, outIndex, offset)`. -/
def decodeLoop (inData : List Nat) (inLength outLength : Nat) :
    Nat → List Nat → Nat → Nat → Except PyErr (List Nat × Nat × Nat)
  | 0, buf, outIdx, offset => .ok (buf, outIdx, offset)
  | fuel + 1, buf, outIdx, offset =>
    if outIdx < outLength ∧ offset < inLength then do
      let flags ← pyGetN inData offset
      let (buf2, outIdx2, offset2) ←
        processBits inData inLength outLength flags 8 buf outIdx (offset + 1)
      decodeLoop inData inLength outLength fuel buf2 outIdx2 offset2
    else .ok (buf, outIdx, offset)

/-- `UncompressLZ77` from src/main.py lines 23-79: if the first byte is not
0x11 the input is returned unchanged; otherwise the header is parsed, a
zero-initialized output buffer of `outLength` bytes is allocated, and the
token stream is decoded into it. -/
def UncompressLZ77 (inData : List Nat) : Except PyErr (List Nat) := do
  let m ← pyGetN inData 0
  if m ≠ 0x11 then
    return inData
  else
    let (outLength, offset) ← GetUncompressedSize inData
    let r ← decodeLoop inData inData.length outLength inData.length
      (List.replicate outLength 0) 0 offset
    return r.1

/-- Wrap a possibly negative index the way Python does on an in-range
negative index: `i < 0` reads position `len + i`. -/
def wrapIdx (len : Nat) (i : Int) : Nat :=
  if i < 0 then ((len : Int) + i).toNat else i.toNat

/-- The copy loop re-expressed with the wrapped read position made explicit:
step `y` reads position `len + (outIdx - pos + y)` when `outIdx - pos + y`
is negative and `outIdx - pos + y` otherwise, and never fails.  Used to
state what the Python copy loop computes when negative reads stay in range. -/
def copyWrappedAux (outIdx pos : Nat) : Nat → Nat → List Nat → List Nat
  | 0, _, buf => buf
  | n + 1, y, buf =>
    let b := buf.getD (wrapIdx buf.length ((outIdx : Int) - (pos : Int) + (y : Int))) 0
    copyWrappedAux outIdx pos n (y + 1) (buf.set (outIdx + y) b)

/-! ### Basic helper lemmas -/

theorem bindOk {α β : Type} (a : α) (f : α → Except PyErr β) :
    (Except.ok a >>= f) = f a := rfl

theorem bindErr {α β : Type} (e : PyErr) (f : α → Except PyErr β) :
    ((Except.error e : Except PyErr α) >>= f) = Except.error e := rfl

theorem pureOk {α : Type} (a : α) : (pure a : Except PyErr α) = Except.ok a := rfl

theorem pyGetN_ok {l : List Nat} {i : Nat} (h : i < l.length) :
    pyGetN l i = .ok (l.getD i 0) := by
  unfold pyGetN
  rw [if_pos h]

theorem pyGetN_err {l : List Nat} {i : Nat} (h : l.length ≤ i) :
    pyGetN l i = .error .indexError := by
  unfold pyGetN
  rw [if_neg (by omega)]

theorem pyGetN_ok_elim {l : List Nat} {i v : Nat} (h : pyGetN l i = .ok v) :
    i < l.length ∧ l.getD i 0 = v := by
  unfold pyGetN at h
  by_cases hc : i < l.length
  · rw [if_pos hc] at h
    exact ⟨hc, Except.ok.inj h⟩
  · rw [if_neg hc] at h
    exact absurd h (by simp)

theorem pySetN_ok {l : List Nat} {i : Nat} (v : Nat) (h : i < l.length) :
    pySetN l i v = .ok (l.set i v) := by
  unfold pySetN
  rw [if_pos h]

theorem pySetN_ok_elim {l l2 : List Nat} {i v : Nat} (h : pySetN l i v = .ok l2) :
    i < l.length ∧ l2 = l.set i v := by
  unfold pySetN at h
  by_cases hc : i < l.length
  · rw [if_pos hc] at h
    exact ⟨hc, (Except.ok.inj h).symm⟩
  · rw [if_neg hc] at h
    exact absurd h (by simp)

theorem getD_set_ne (l : List Nat) (i j v : Nat) (h : i ≠ j) :
    (l.set i v).getD j 0 = l.getD j 0 := by
  rw [List.getD_eq_getElem?_getD, List.getD_eq_getElem?_getD, List.getElem?_set_ne h]

theorem getD_set_self (l : List Nat) (i v : Nat) (h : i < l.length) :
    (l.set i v).getD i 0 = v := by
  rw [List.getD_eq_getElem?_getD, List.getElem?_set_eq_of_lt _ h]
  rfl

theorem getD_append_left (l t : List Nat) (i : Nat) (h : i < l.length) :
    (l ++ t).getD i 0 = l.getD i 0 := by
  rw [List.getD_eq_getElem?_getD, List.getD_eq_getElem?_getD, List.getElem?_append_left h]

theorem getD_replicate_zero (n i : Nat) : (List.replicate n (0 : Nat)).getD i 0 = 0 := by
  rw [List.getD_eq_getElem?_getD]
  rcases lt_or_ge i n with h | h
  · rw [List.getElem?_eq_getElem (by simpa using h)]
    simp [List.getElem_replicate]
  · rw [List.getElem?_eq_none (by simpa using h)]
    rfl

theorem pyGetN_append_ok {l : List Nat} (t : List Nat) {i v : Nat}
    (h : pyGetN l i = .ok v) : pyGetN (l ++ t) i = .ok v := by
  obtain ⟨hlt, hv⟩ := pyGetN_ok_elim h
  rw [pyGetN_ok (by simp; omega), getD_append_left _ _ _ hlt, hv]

/-- Disjoint bit ranges: `a ||| (b <<< n) = a + b * 2 ^ n` when `a < 2 ^ n`. -/
theorem lor_shiftLeft_eq_add (n : ℕ) :
    ∀ a b : ℕ, a < 2 ^ n → a ||| (b <<< n) = a + b * 2 ^ n := by
  induction n with
  | zero =>
    intro a b ha
    have : a = 0 := by omega
    subst this
    simp [Nat.shiftLeft_eq]
  | succ n ih =>
    intro a b ha
    have h1 : Nat.bit (a.testBit 0) (a >>> 1) = a := Nat.bit_testBit_zero_shiftRight_one a
    have h2 : b <<< (n + 1) = Nat.bit false (b <<< n) := by
      simp [Nat.bit, Nat.shiftLeft_succ, Nat.mul_comm]
    have hlt : a >>> 1 < 2 ^ n := by
      rw [Nat.shiftRight_one]
      rw [pow_succ] at ha
      omega
    have h3 := Nat.lor_bit (a.testBit 0) (a >>> 1) false (b <<< n)
    calc a ||| (b <<< (n + 1))
        = Nat.bit (a.testBit 0) (a >>> 1) ||| Nat.bit false (b <<< n) := by rw [h1, h2]
      _ = Nat.bit (a.testBit 0 || false) ((a >>> 1) ||| (b <<< n)) := h3
      _ = Nat.bit (a.testBit 0) ((a >>> 1) + b * 2 ^ n) := by rw [ih _ _ hlt]; simp
      _ = a + b * 2 ^ (n + 1) := by
          rw [Nat.bit_val] at h1 ⊢
          rw [pow_succ]
          have hr : b * (2 ^ n * 2) = 2 * (b * 2 ^ n) := by ring
          omega

/-! ### Claims C1 and C2: back-reference token classes -/

/-- C1 (counterexample): at the concrete token bytes `[16, 0, 0, 0]` the
first byte satisfies `16 ≤ first < 32`, and the code consumes 4 token
bytes with copy length 273 — not the 3 bytes with copy length 17 the
claim states. -/
theorem c1_counterexample :
    readToken [16, 0, 0, 0] 0 = Except.ok (1, 273, 4) ∧
    readToken [16, 0, 0, 0] 0 ≠ Except.ok (1, 17, 3) := by
  refine ⟨rfl, ?_⟩
  intro h
  have h2 : ((1, 273, 4) : Nat × Nat × Nat) = (1, 17, 3) :=
    Except.ok.inj ((rfl : readToken [16, 0, 0, 0] 0 = Except.ok (1, 273, 4)) ▸ h)
  simp at h2

/-- C1 (amended): for a back-reference token whose first byte satisfies
`16 ≤ first < 32`, exactly 4 token bytes are consumed beyond the flag byte,
the copy distance is `(((third &&& 0xF) <<< 8) ||| fourth) + 1`, and the
copy length is `((second <<< 4) ||| ((first &&& 0xF) <<< 12) ||| (third >>> 4)) + 273`. -/
theorem c1_theorem (inData : List Nat) (offset first second third fourth : Nat)
    (h0 : pyGetN inData offset = .ok first)
    (h1 : pyGetN inData (offset + 1) = .ok second)
    (h2 : pyGetN inData (offset + 2) = .ok third)
    (h3 : pyGetN inData (offset + 3) = .ok fourth)
    (hlo : 16 ≤ first) (hhi : first < 32) :
    readToken inData offset =
      .ok ((((third &&& 0xF) <<< 8) ||| fourth) + 1,
           ((second <<< 4) ||| ((first &&& 0xF) <<< 12) ||| (third >>> 4)) + 273,
           offset + 4) := by
  unfold readToken
  rw [h0, bindOk, h1, bindOk, if_pos hhi, h2, bindOk, if_pos hlo, h3, bindOk]
  rfl

theorem c1_witness :
    readToken [16, 1, 2, 3] 0 =
      .ok ((((2 &&& 0xF) <<< 8) ||| 3) + 1,
           ((1 <<< 4) ||| ((16 &&& 0xF) <<< 12) ||| (2 >>> 4)) + 273,
           0 + 4) :=
  c1_theorem [16, 1, 2, 3] 0 16 1 2 3 rfl rfl rfl rfl (by decide) (by decide)

/-- C2 (counterexample): at the concrete token bytes `[0, 0, 0, 0]` the
first byte satisfies `first < 16`, and the code consumes 3 token bytes with
copy length 17 — not the 4 bytes with copy length 273 the claim states. -/
theorem c2_counterexample :
    readToken [0, 0, 0, 0] 0 = Except.ok (1, 17, 3) ∧
    readToken [0, 0, 0, 0] 0 ≠ Except.ok (1, 273, 4) := by
  refine ⟨rfl, ?_⟩
  intro h
  have h2 : ((1, 17, 3) : Nat × Nat × Nat) = (1, 273, 4) :=
    Except.ok.inj ((rfl : readToken [0, 0, 0, 0] 0 = Except.ok (1, 17, 3)) ▸ h)
  simp at h2

/-- C2 (amended): for a back-reference token whose first byte satisfies
`first < 16`, exactly 3 token bytes are consumed beyond the flag byte, the
copy distance is `(((second &&& 0xF) <<< 8) ||| third) + 1`, and the copy
length is `(((first &&& 0xF) <<< 4) ||| (second >>> 4)) + 17`. -/
theorem c2_theorem (inData : List Nat) (offset first second third : Nat)
    (h0 : pyGetN inData offset = .ok first)
    (h1 : pyGetN inData (offset + 1) = .ok second)
    (h2 : pyGetN inData (offset + 2) = .ok third)
    (hhi : first < 16) :
    readToken inData offset =
      .ok ((((second &&& 0xF) <<< 8) ||| third) + 1,
           (((first &&& 0xF) <<< 4) ||| (second >>> 4)) + 17,
           offset + 3) := by
  unfold readToken
  rw [h0, bindOk, h1, bindOk, if_pos (by omega : first < 32), h2, bindOk,
    if_neg (by omega : ¬first ≥ 16)]
  rfl

theorem c2_witness :
    readToken [2, 1, 5, 9] 0 =
      .ok ((((1 &&& 0xF) <<< 8) ||| 5) + 1,
           (((2 &&& 0xF) <<< 4) ||| (1 >>> 4)) + 17,
           0 + 3) :=
  c2_theorem [2, 1, 5, 9] 0 2 1 5 rfl rfl rfl (by decide)

/-! ### Claim C3: concrete overlapping back-reference decode -/

/-- C3: the compressed stream `11 08 00 00 08 41 41 41 41 30 00` decodes to
exactly 8 bytes `0x41` ("AAAAAAAA"): four literals (flag bits consumed
MSB-first) followed by the 2-byte token `first=0x30, second=0x00`, an
overlapping distance-1, length-4 copy. -/
theorem c3_theorem :
    UncompressLZ77 [0x11, 0x08, 0x00, 0x00, 0x08, 0x41, 0x41, 0x41, 0x41, 0x30, 0x00] =
      Except.ok (List.replicate 8 0x41) := rfl

/-! ### Claim C5: a distance larger than outputIndex does not fail -/

/-- C5 (code evaluated at the failing input): the stream
`11 04 00 00 80 30 01` contains a back-reference with `distance = 2 > 0 =
outputIndex`; `UncompressLZ77` nevertheless returns a result (the negative
read indices wrap around, Python-style) instead of any reported decode
failure. -/
theorem c5_theorem :
    UncompressLZ77 [0x11, 0x04, 0x00, 0x00, 0x80, 0x30, 0x01] =
      Except.ok [0, 0, 0, 0] := rfl

/-! ### Claim C8: pass-through on a bad marker byte -/

/-- C8: for every non-empty input whose first byte is not 0x11,
`UncompressLZ77` returns the input unchanged. -/
theorem c8_theorem (s : List Nat) (h0 : 0 < s.length) (hm : s.getD 0 0 ≠ 0x11) :
    UncompressLZ77 s = Except.ok s := by
  unfold UncompressLZ77
  rw [pyGetN_ok h0, bindOk, if_pos hm]
  rfl

theorem c8_witness : UncompressLZ77 [1, 2, 3] = Except.ok [1, 2, 3] :=
  c8_theorem [1, 2, 3] (by decide) (by decide)

/-! ### Claims C6 and C7: header parsing -/

/-- C6: for `0 < L < 2^24`, a stream whose bytes 1-3 hold `L` in
little-endian order yields `outputLength = L` and `startOffset = 4`. -/
theorem c6_theorem (s : List Nat) (L : Nat) (hlen : 4 ≤ s.length)
    (hL0 : 0 < L) (hL : L < 2 ^ 24)
    (h1 : s.getD 1 0 = L % 256)
    (h2 : s.getD 2 0 = L / 256 % 256)
    (h3 : s.getD 3 0 = L / 65536 % 256) :
    GetUncompressedSize s = Except.ok (L, 4) := by
  have key : (L % 256) ||| ((L / 256 % 256) <<< 8) ||| ((L / 65536 % 256) <<< 16) = L := by
    rw [lor_shiftLeft_eq_add 8 (L % 256) (L / 256 % 256) (by omega)]
    rw [lor_shiftLeft_eq_add 16 _ (L / 65536 % 256) (by norm_num; omega)]
    norm_num
    omega
  unfold GetUncompressedSize
  rw [pyGetN_ok (by omega), bindOk, pyGetN_ok (by omega), bindOk,
    pyGetN_ok (by omega), bindOk, h1, h2, h3]
  simp only [key]
  rw [if_neg (by omega)]
  rfl

theorem c6_witness : GetUncompressedSize [0x11, 5, 0, 0] = Except.ok (5, 4) :=
  c6_theorem [0x11, 5, 0, 0] 5 (by decide) (by decide) (by decide) rfl rfl rfl

/-- C7: a stream whose bytes 1-3 are all zero and whose bytes 4-7 hold `L`
(little-endian 32-bit) yields `outputLength = L` and `startOffset = 8`. -/
theorem c7_theorem (s : List Nat) (L : Nat) (hlen : 8 ≤ s.length)
    (hL : L < 2 ^ 32)
    (h1 : s.getD 1 0 = 0) (h2 : s.getD 2 0 = 0) (h3 : s.getD 3 0 = 0)
    (h4 : s.getD 4 0 = L % 256)
    (h5 : s.getD 5 0 = L / 256 % 256)
    (h6 : s.getD 6 0 = L / 65536 % 256)
    (h7 : s.getD 7 0 = L / 16777216 % 256) :
    GetUncompressedSize s = Except.ok (L, 8) := by
  have key : (L % 256) ||| ((L / 256 % 256) <<< 8) ||| ((L / 65536 % 256) <<< 16) |||
      ((L / 16777216 % 256) <<< 24) = L := by
    rw [lor_shiftLeft_eq_add 8 (L % 256) (L / 256 % 256) (by omega)]
    rw [lor_shiftLeft_eq_add 16 _ (L / 65536 % 256) (by norm_num; omega)]
    rw [lor_shiftLeft_eq_add 24 _ (L / 16777216 % 256) (by norm_num; omega)]
    norm_num
    omega
  unfold GetUncompressedSize
  rw [pyGetN_ok (by omega), bindOk, pyGetN_ok (by omega), bindOk,
    pyGetN_ok (by omega), bindOk, h1, h2, h3]
  rw [if_pos (by decide)]
  rw [pyGetN_ok (by omega), bindOk, pyGetN_ok (by omega), bindOk,
    pyGetN_ok (by omega), bindOk, pyGetN_ok (by omega), bindOk, h4, h5, h6, h7]
  rw [pureOk, key]

theorem c7_witness :
    GetUncompressedSize [0x11, 0, 0, 0, 7, 0, 0, 0] = Except.ok (7, 8) :=
  c7_theorem [0x11, 0, 0, 0, 7, 0, 0, 0] 7 (by decide) (by decide)
    rfl rfl rfl rfl rfl rfl rfl

/-! ### Claim C10: incomplete header raises an index error -/

theorem getUncompressedSize_err_short (s : List Nat)
    (hshort : s.length < 4 ∨
      (s.length < 8 ∧ s.getD 1 0 = 0 ∧ s.getD 2 0 = 0 ∧ s.getD 3 0 = 0)) :
    GetUncompressedSize s = Except.error PyErr.indexError := by
  unfold GetUncompressedSize
  rcases lt_or_ge s.length 4 with hlt | hge
  · rcases (show s.length ≤ 1 ∨ s.length = 2 ∨ s.length = 3 by omega) with h | h | h
    · rw [pyGetN_err (by omega), bindErr]
    · rw [pyGetN_ok (by omega), bindOk, pyGetN_err (by omega), bindErr]
    · rw [pyGetN_ok (by omega), bindOk, pyGetN_ok (by omega), bindOk,
        pyGetN_err (by omega), bindErr]
  · obtain ⟨hlt, z1, z2, z3⟩ := hshort.resolve_left (by omega)
    rcases (show s.length = 4 ∨ s.length = 5 ∨ s.length = 6 ∨ s.length = 7 by omega)
      with h | h | h | h
    all_goals
      rw [pyGetN_ok (by omega), bindOk, pyGetN_ok (by omega), bindOk,
        pyGetN_ok (by omega), bindOk, z1, z2, z3, if_pos (by decide)]
    · rw [pyGetN_err (by omega), bindErr]
    · rw [pyGetN_ok (by omega), bindOk, pyGetN_err (by omega), bindErr]
    · rw [pyGetN_ok (by omega), bindOk, pyGetN_ok (by omega), bindOk,
        pyGetN_err (by omega), bindErr]
    · rw [pyGetN_ok (by omega), bindOk, pyGetN_ok (by omega), bindOk,
        pyGetN_ok (by omega), bindOk, pyGetN_err (by omega), bindErr]

/-- C10: if the first byte is 0x11 but the input is shorter than the full
header — fewer than 4 bytes, or fewer than 8 bytes when bytes 1-3 are all
zero — `UncompressLZ77` raises an out-of-range index error while reading
the header. -/
theorem c10_theorem (s : List Nat) (h0 : 0 < s.length) (hm : s.getD 0 0 = 0x11)
    (hshort : s.length < 4 ∨
      (s.length < 8 ∧ s.getD 1 0 = 0 ∧ s.getD 2 0 = 0 ∧ s.getD 3 0 = 0)) :
    UncompressLZ77 s = Except.error PyErr.indexError := by
  unfold UncompressLZ77
  rw [pyGetN_ok h0, bindOk, hm, if_neg (by simp),
    getUncompressedSize_err_short s hshort, bindErr]

theorem c10_witness : UncompressLZ77 [0x11, 0, 0] = Except.error PyErr.indexError :=
  c10_theorem [0x11, 0, 0] (by decide) rfl (Or.inl (by decide))

/-! ### Claim C9: negative read indices wrap around Python-style -/

theorem copyAux_wrapped (outIdx pos : Nat) (hpos : 1 ≤ pos) :
    ∀ (n y : Nat) (buf : List Nat),
    (∀ z : Nat, y ≤ z → z < y + n →
      -(buf.length : Int) ≤ (outIdx : Int) - (pos : Int) + (z : Int)) →
    outIdx + y + n ≤ buf.length →
    copyAux outIdx pos n y buf = .ok (copyWrappedAux outIdx pos n y buf) := by
  intro n
  induction n with
  | zero =>
    intro y buf _ _
    rfl
  | succ n ih =>
    intro y buf hr hw
    have hread :
        pyGet buf ((outIdx : Int) - (pos : Int) + (y : Int)) =
          .ok (buf.getD (wrapIdx buf.length ((outIdx : Int) - (pos : Int) + (y : Int))) 0) := by
      unfold pyGet wrapIdx
      by_cases hc : 0 ≤ (outIdx : Int) - (pos : Int) + (y : Int)
      · rw [if_pos hc, if_pos (by omega), if_neg (by omega)]
      · have hge := hr y (le_refl y) (by omega)
        rw [if_neg hc, if_pos hge, if_pos (by omega)]
    have hwrite := pySetN_ok (l := buf) (i := outIdx + y)
      (buf.getD (wrapIdx buf.length ((outIdx : Int) - (pos : Int) + (y : Int))) 0)
      (by omega)
    show (do
      let b ← pyGet buf ((outIdx : Int) - (pos : Int) + (y : Int))
      let buf2 ← pySetN buf (outIdx + y) b
      copyAux outIdx pos n (y + 1) buf2) = _
    rw [hread, bindOk, hwrite, bindOk]
    rw [ih (y + 1) _ ?_ ?_]
    · rfl
    · intro z hz1 hz2
      rw [List.length_set]
      exact hr z (by omega) (by omega)
    · rw [List.length_set]
      omega

/-- C9 (amended): a back-reference whose distance exceeds the current
`outputIndex` does not raise an error provided every read offset satisfies
`outputIndex - distance + y ≥ -outputLength` and every written index stays
inside the buffer (`outputIndex + length ≤ outputLength`): each negative
read index wraps around, Python-style, to position
`outputLength + (outputIndex - distance + y)`, as made explicit by
`copyWrappedAux`, and the copy completes silently with the wrapped data. -/
theorem c9_theorem (buf : List Nat) (outIdx pos copylen : Nat)
    (hdist : outIdx < pos)
    (hreads : ∀ y : Nat, y < copylen →
      -(buf.length : Int) ≤ (outIdx : Int) - (pos : Int) + (y : Int))
    (hwrites : outIdx + copylen ≤ buf.length) :
    copyLoop buf outIdx pos copylen =
      .ok (copyWrappedAux outIdx pos copylen 0 buf) := by
  unfold copyLoop
  exact copyAux_wrapped outIdx pos (by omega) copylen 0 buf
    (fun z _ hz => hreads z (by omega)) (by omega)

theorem c9_witness :
    copyLoop [5, 6, 7, 8] 1 3 2 = .ok (copyWrappedAux 1 3 2 0 [5, 6, 7, 8]) :=
  c9_theorem [5, 6, 7, 8] 1 3 2 (by decide) (by decide) (by decide)

/-- C9 (counterexample to the claim as stated): in the stream
`11 04 00 00 20 AA BB 20 03` the back-reference has `distance = 4 >
outputIndex = 2` and every read offset satisfies
`outputIndex - distance + y ≥ -outputLength`, yet the decode raises an
index error (the copy writes past the end of the 4-byte buffer), so the
reads-in-range condition alone does not guarantee an error-free decode. -/
theorem c9_counterexample :
    UncompressLZ77 [0x11, 0x04, 0x00, 0x00, 0x20, 0xAA, 0xBB, 0x20, 0x03] =
      Except.error PyErr.indexError ∧
    (2 : Nat) < 4 ∧
    -(4 : Int) ≤ (2 : Int) - 4 + 0 ∧
    -(4 : Int) ≤ (2 : Int) - 4 + 1 ∧
    -(4 : Int) ≤ (2 : Int) - 4 + 2 :=
  ⟨rfl, by decide, by decide, by decide, by decide⟩

/-! ### Structural lemmas about the decoder, used for the truncation claim -/

theorem readToken_spec {s : List Nat} {off p c off2 : Nat}
    (h : readToken s off = .ok (p, c, off2)) :
    off + 2 ≤ off2 ∧ off2 ≤ off + 4 ∧
      ∀ t : List Nat, readToken (s ++ t) off = .ok (p, c, off2) := by
  unfold readToken at h ⊢
  cases h0 : pyGetN s off with
  | error e => rw [h0, bindErr] at h; exact absurd h (by simp)
  | ok first =>
    rw [h0, bindOk] at h
    cases h1 : pyGetN s (off + 1) with
    | error e => rw [h1, bindErr] at h; exact absurd h (by simp)
    | ok second =>
      rw [h1, bindOk] at h
      by_cases hf32 : first < 32
      · rw [if_pos hf32] at h
        cases h2 : pyGetN s (off + 2) with
        | error e => rw [h2, bindErr] at h; exact absurd h (by simp)
        | ok third =>
          rw [h2, bindOk] at h
          by_cases hf16 : first ≥ 16
          · rw [if_pos hf16] at h
            cases h3 : pyGetN s (off + 3) with
            | error e => rw [h3, bindErr] at h; exact absurd h (by simp)
            | ok fourth =>
              rw [h3, bindOk, pureOk] at h
              simp only [Except.ok.injEq, Prod.mk.injEq] at h
              refine ⟨by omega, by omega, fun t => ?_⟩
              rw [pyGetN_append_ok t h0, bindOk, pyGetN_append_ok t h1, bindOk,
                if_pos hf32, pyGetN_append_ok t h2, bindOk, if_pos hf16,
                pyGetN_append_ok t h3, bindOk, pureOk]
              simp only [Except.ok.injEq, Prod.mk.injEq]
              exact h
          · rw [if_neg hf16, pureOk] at h
            simp only [Except.ok.injEq, Prod.mk.injEq] at h
            refine ⟨by omega, by omega, fun t => ?_⟩
            rw [pyGetN_append_ok t h0, bindOk, pyGetN_append_ok t h1, bindOk,
              if_pos hf32, pyGetN_append_ok t h2, bindOk, if_neg hf16, pureOk]
            simp only [Except.ok.injEq, Prod.mk.injEq]
            exact h
      · rw [if_neg hf32, pureOk] at h
        simp only [Except.ok.injEq, Prod.mk.injEq] at h
        refine ⟨by omega, by omega, fun t => ?_⟩
        rw [pyGetN_append_ok t h0, bindOk, pyGetN_append_ok t h1, bindOk,
          if_neg hf32, pureOk]
        simp only [Except.ok.injEq, Prod.mk.injEq]
        exact h

theorem copyAux_spec (outIdx pos : Nat) :
    ∀ (n y : Nat) (buf buf2 : List Nat),
    copyAux outIdx pos n y buf = .ok buf2 →
    buf2.length = buf.length ∧
      ∀ i : Nat, (i < outIdx + y ∨ outIdx + y + n ≤ i) → buf2.getD i 0 = buf.getD i 0 := by
  intro n
  induction n with
  | zero =>
    intro y buf buf2 h
    cases h
    exact ⟨rfl, fun i _ => rfl⟩
  | succ n ih =>
    intro y buf buf2 h
    unfold copyAux at h
    cases hg : pyGet buf ((outIdx : Int) - (pos : Int) + (y : Int)) with
    | error e => rw [hg, bindErr] at h; exact absurd h (by simp)
    | ok b =>
      rw [hg, bindOk] at h
      cases hs : pySetN buf (outIdx + y) b with
      | error e => rw [hs, bindErr] at h; exact absurd h (by simp)
      | ok bufw =>
        rw [hs, bindOk] at h
        obtain ⟨hwlt, hweq⟩ := pySetN_ok_elim hs
        obtain ⟨hlen, hout⟩ := ih (y + 1) bufw buf2 h
        subst hweq
        refine ⟨by rw [hlen, List.length_set], fun i hi => ?_⟩
        rw [hout i (by omega), getD_set_ne _ _ _ _ (by omega)]

theorem copyLoop_spec {buf buf2 : List Nat} {outIdx pos copylen : Nat}
    (h : copyLoop buf outIdx pos copylen = .ok buf2) :
    buf2.length = buf.length ∧
      ∀ i : Nat, (i < outIdx ∨ outIdx + copylen ≤ i) → buf2.getD i 0 = buf.getD i 0 := by
  obtain ⟨hlen, hout⟩ := copyAux_spec outIdx pos copylen 0 buf buf2 h
  exact ⟨hlen, fun i hi => hout i (by omega)⟩

theorem pb_stop {inData : List Nat} {inLen L flags n buf outIdx off}
    (hc : outIdx ≥ L ∨ off ≥ inLen) :
    processBits inData inLen L flags (n + 1) buf outIdx off = .ok (buf, outIdx, off) := by
  conv_lhs => rw [processBits]
  rw [if_pos hc]

theorem pb_br {inData : List Nat} {inLen L flags n buf outIdx off}
    (hc : ¬(outIdx ≥ L ∨ off ≥ inLen)) (hb : flags &&& (1 <<< n) ≠ 0) :
    processBits inData inLen L flags (n + 1) buf outIdx off = (do
      let (pos, copylen, offset2) ← readToken inData off
      let buf2 ← copyLoop buf outIdx pos copylen
      processBits inData inLen L flags n buf2 (outIdx + copylen) offset2) := by
  conv_lhs => rw [processBits]
  rw [if_neg hc, if_pos hb]

theorem pb_lit {inData : List Nat} {inLen L flags n buf outIdx off}
    (hc : ¬(outIdx ≥ L ∨ off ≥ inLen)) (hb : ¬flags &&& (1 <<< n) ≠ 0) :
    processBits inData inLen L flags (n + 1) buf outIdx off = (do
      let b ← pyGetN inData off
      let buf2 ← pySetN buf outIdx b
      processBits inData inLen L flags n buf2 (outIdx + 1) (off + 1)) := by
  conv_lhs => rw [processBits]
  rw [if_neg hc, if_neg hb]

theorem pb_spec (inData : List Nat) (inLen L flags : Nat) :
    ∀ (n : Nat) (buf : List Nat) (oi off : Nat) (b2 : List Nat) (oi2 off2 : Nat),
    processBits inData inLen L flags n buf oi off = .ok (b2, oi2, off2) →
    oi ≤ oi2 ∧ off ≤ off2 ∧ b2.length = buf.length ∧
      ∀ i : Nat, (i < oi ∨ oi2 ≤ i) → b2.getD i 0 = buf.getD i 0 := by
  intro n
  induction n with
  | zero =>
    intro buf oi off b2 oi2 off2 h
    unfold processBits at h
    simp only [Except.ok.injEq, Prod.mk.injEq] at h
    obtain ⟨rfl, rfl, rfl⟩ := h
    exact ⟨le_refl _, le_refl _, rfl, fun i _ => rfl⟩
  | succ n ih =>
    intro buf oi off b2 oi2 off2 h
    by_cases hc : oi ≥ L ∨ off ≥ inLen
    · rw [pb_stop hc] at h
      simp only [Except.ok.injEq, Prod.mk.injEq] at h
      obtain ⟨rfl, rfl, rfl⟩ := h
      exact ⟨le_refl _, le_refl _, rfl, fun i _ => rfl⟩
    · by_cases hb : flags &&& (1 <<< n) ≠ 0
      · rw [pb_br hc hb] at h
        cases hrt : readToken inData off with
        | error e => rw [hrt, bindErr] at h; exact absurd h (by simp)
        | ok trip =>
          obtain ⟨p, c, offn⟩ := trip
          rw [hrt] at h
          simp only [bindOk] at h
          cases hcl : copyLoop buf oi p c with
          | error e => rw [hcl, bindErr] at h; exact absurd h (by simp)
          | ok bufw =>
            rw [hcl] at h
            simp only [bindOk] at h
            obtain ⟨hoi2, hoff2, hlen, hout⟩ := ih _ _ _ _ _ _ h
            obtain ⟨ht1, ht2, _⟩ := readToken_spec hrt
            obtain ⟨hclen, hclout⟩ := copyLoop_spec hcl
            refine ⟨by omega, by omega, by rw [hlen, hclen], fun i hi => ?_⟩
            rcases hi with hi | hi
            · rw [hout i (Or.inl (by omega)), hclout i (Or.inl hi)]
            · rw [hout i (Or.inr hi), hclout i (Or.inr (by omega))]
      · rw [pb_lit hc hb] at h
        cases hg : pyGetN inData off with
        | error e => rw [hg, bindErr] at h; exact absurd h (by simp)
        | ok b =>
          rw [hg] at h
          simp only [bindOk] at h
          cases hs : pySetN buf oi b with
          | error e => rw [hs, bindErr] at h; exact absurd h (by simp)
          | ok bufw =>
            rw [hs] at h
            simp only [bindOk] at h
            obtain ⟨hwlt, hweq⟩ := pySetN_ok_elim hs
            subst hweq
            obtain ⟨hoi2, hoff2, hlen, hout⟩ := ih _ _ _ _ _ _ h
            refine ⟨by omega, by omega, by rw [hlen, List.length_set], fun i hi => ?_⟩
            rcases hi with hi | hi
            · rw [hout i (Or.inl (by omega)), getD_set_ne _ _ _ _ (by omega)]
            · rw [hout i (Or.inr hi), getD_set_ne _ _ _ _ (by omega)]

theorem dl_zero {inData : List Nat} {inLen L buf oi off} :
    decodeLoop inData inLen L 0 buf oi off = .ok (buf, oi, off) := rfl

theorem dl_stop_cond {inData : List Nat} {inLen L f buf oi off}
    (hc : ¬(oi < L ∧ off < inLen)) :
    decodeLoop inData inLen L (f + 1) buf oi off = .ok (buf, oi, off) := by
  conv_lhs => rw [decodeLoop]
  rw [if_neg hc]

theorem dl_step {inData : List Nat} {inLen L f buf oi off}
    (hc : oi < L ∧ off < inLen) :
    decodeLoop inData inLen L (f + 1) buf oi off = (do
      let flags ← pyGetN inData off
      let (buf2, outIdx2, offset2) ←
        processBits inData inLen L flags 8 buf oi (off + 1)
      decodeLoop inData inLen L f buf2 outIdx2 offset2) := by
  conv_lhs => rw [decodeLoop]
  rw [if_pos hc]

theorem dl_stop {inData : List Nat} {inLen L buf oi off} (h : inLen ≤ off) :
    ∀ f, decodeLoop inData inLen L f buf oi off = .ok (buf, oi, off) := by
  intro f
  cases f with
  | zero => rfl
  | succ f => exact dl_stop_cond (by omega)

theorem dl_spec (inData : List Nat) (inLen L : Nat) :
    ∀ (f : Nat) (buf : List Nat) (oi off : Nat) (b2 : List Nat) (oi2 off2 : Nat),
    decodeLoop inData inLen L f buf oi off = .ok (b2, oi2, off2) →
    oi ≤ oi2 ∧ off ≤ off2 ∧ b2.length = buf.length ∧
      ∀ i : Nat, (i < oi ∨ oi2 ≤ i) → b2.getD i 0 = buf.getD i 0 := by
  intro f
  induction f with
  | zero =>
    intro buf oi off b2 oi2 off2 h
    rw [dl_zero] at h
    simp only [Except.ok.injEq, Prod.mk.injEq] at h
    obtain ⟨rfl, rfl, rfl⟩ := h
    exact ⟨le_refl _, le_refl _, rfl, fun i _ => rfl⟩
  | succ f ih =>
    intro buf oi off b2 oi2 off2 h
    by_cases hc : oi < L ∧ off < inLen
    · rw [dl_step hc] at h
      cases hflag : pyGetN inData off with
      | error e => rw [hflag, bindErr] at h; exact absurd h (by simp)
      | ok flags =>
        rw [hflag] at h
        simp only [bindOk] at h
        cases hpb : processBits inData inLen L flags 8 buf oi (off + 1) with
        | error e => rw [hpb, bindErr] at h; exact absurd h (by simp)
        | ok trip =>
          obtain ⟨bA, oiA, offA⟩ := trip
          rw [hpb] at h
          simp only [bindOk] at h
          obtain ⟨hoiA, hoffA, hlenA, houtA⟩ := pb_spec inData inLen L flags 8 _ _ _ _ _ _ hpb
          obtain ⟨hoi2, hoff2, hlen2, hout2⟩ := ih _ _ _ _ _ _ h
          refine ⟨by omega, by omega, by rw [hlen2, hlenA], fun i hi => ?_⟩
          rcases hi with hi | hi
          · rw [hout2 i (Or.inl (by omega)), houtA i (Or.inl hi)]
          · rw [hout2 i (Or.inr hi), houtA i (Or.inr (by omega))]
    · rw [dl_stop_cond hc] at h
      simp only [Except.ok.injEq, Prod.mk.injEq] at h
      obtain ⟨rfl, rfl, rfl⟩ := h
      exact ⟨le_refl _, le_refl _, rfl, fun i _ => rfl⟩

/-- Running the flag-bit loop on an extended stream `s ++ ext`: either the
run on `s` never hit the end of `s`, and the extended run takes exactly the
same steps, or the run on `s` stopped at the end of `s`, and the extended
run can only grow the output at or beyond the stopping `outIndex`. -/
theorem pb_append (s ext : List Nat) (L flags : Nat) :
    ∀ (n : Nat) (buf : List Nat) (oi off : Nat) (b1 : List Nat) (oi1 off1 : Nat),
    processBits s s.length L flags n buf oi off = .ok (b1, oi1, off1) →
    processBits (s ++ ext) (s ++ ext).length L flags n buf oi off = .ok (b1, oi1, off1) ∨
    (s.length ≤ off1 ∧
      ∀ (b2 : List Nat) (oi2 off2 : Nat),
        processBits (s ++ ext) (s ++ ext).length L flags n buf oi off = .ok (b2, oi2, off2) →
        oi1 ≤ oi2 ∧ ∀ i : Nat, i < oi1 → b2.getD i 0 = b1.getD i 0) := by
  intro n
  induction n with
  | zero =>
    intro buf oi off b1 oi1 off1 h
    unfold processBits at h
    simp only [Except.ok.injEq, Prod.mk.injEq] at h
    obtain ⟨rfl, rfl, rfl⟩ := h
    exact Or.inl rfl
  | succ n ih =>
    intro buf oi off b1 oi1 off1 h
    by_cases hL : oi ≥ L
    · rw [pb_stop (Or.inl hL)] at h
      simp only [Except.ok.injEq, Prod.mk.injEq] at h
      obtain ⟨rfl, rfl, rfl⟩ := h
      exact Or.inl (pb_stop (Or.inl hL))
    · by_cases hoff : off ≥ s.length
      · rw [pb_stop (Or.inr hoff)] at h
        simp only [Except.ok.injEq, Prod.mk.injEq] at h
        obtain ⟨rfl, rfl, rfl⟩ := h
        refine Or.inr ⟨hoff, fun b2 oi2 off2 h2 => ?_⟩
        obtain ⟨hoi2, _, _, hout2⟩ := pb_spec (s ++ ext) (s ++ ext).length L flags _ _ _ _ _ _ _ h2
        exact ⟨hoi2, fun i hi => hout2 i (Or.inl hi)⟩
      · have hc : ¬(oi ≥ L ∨ off ≥ s.length) := by omega
        have hc2 : ¬(oi ≥ L ∨ off ≥ (s ++ ext).length) := by
          simp only [List.length_append]
          omega
        by_cases hb : flags &&& (1 <<< n) ≠ 0
        · rw [pb_br hc hb] at h
          cases hrt : readToken s off with
          | error e => rw [hrt, bindErr] at h; exact absurd h (by simp)
          | ok trip =>
            obtain ⟨p, c, offn⟩ := trip
            rw [hrt] at h
            simp only [bindOk] at h
            cases hcl : copyLoop buf oi p c with
            | error e => rw [hcl, bindErr] at h; exact absurd h (by simp)
            | ok bufw =>
              rw [hcl] at h
              simp only [bindOk] at h
              obtain ⟨_, _, happ⟩ := readToken_spec hrt
              have hstep2 :
                  processBits (s ++ ext) (s ++ ext).length L flags (n + 1) buf oi off =
                    processBits (s ++ ext) (s ++ ext).length L flags n bufw (oi + c) offn := by
                rw [pb_br hc2 hb, happ ext]
                simp only [bindOk]
                rw [hcl]
                simp only [bindOk]
              rcases ih bufw (oi + c) offn b1 oi1 off1 h with hsame | ⟨hof, hrest⟩
              · exact Or.inl (by rw [hstep2]; exact hsame)
              · refine Or.inr ⟨hof, fun b2 oi2 off2 h2 => ?_⟩
                rw [hstep2] at h2
                exact hrest b2 oi2 off2 h2
        · rw [pb_lit hc hb] at h
          cases hg : pyGetN s off with
          | error e => rw [hg, bindErr] at h; exact absurd h (by simp)
          | ok b =>
            rw [hg] at h
            simp only [bindOk] at h
            cases hs : pySetN buf oi b with
            | error e => rw [hs, bindErr] at h; exact absurd h (by simp)
            | ok bufw =>
              rw [hs] at h
              simp only [bindOk] at h
              have hstep2 :
                  processBits (s ++ ext) (s ++ ext).length L flags (n + 1) buf oi off =
                    processBits (s ++ ext) (s ++ ext).length L flags n bufw (oi + 1) (off + 1) := by
                rw [pb_lit hc2 hb, pyGetN_append_ok ext hg]
                simp only [bindOk]
                rw [hs]
                simp only [bindOk]
              rcases ih bufw (oi + 1) (off + 1) b1 oi1 off1 h with hsame | ⟨hof, hrest⟩
              · exact Or.inl (by rw [hstep2]; exact hsame)
              · refine Or.inr ⟨hof, fun b2 oi2 off2 h2 => ?_⟩
                rw [hstep2] at h2
                exact hrest b2 oi2 off2 h2

theorem getUncompressedSize_append {s : List Nat} {r : Nat × Nat} (t : List Nat)
    (h : GetUncompressedSize s = .ok r) : GetUncompressedSize (s ++ t) = .ok r := by
  unfold GetUncompressedSize at h ⊢
  cases h1 : pyGetN s 1 with
  | error e => rw [h1, bindErr] at h; exact absurd h (by simp)
  | ok b1 =>
    rw [h1, bindOk] at h
    cases h2 : pyGetN s 2 with
    | error e => rw [h2, bindErr] at h; exact absurd h (by simp)
    | ok b2 =>
      rw [h2, bindOk] at h
      cases h3 : pyGetN s 3 with
      | error e => rw [h3, bindErr] at h; exact absurd h (by simp)
      | ok b3 =>
        rw [h3, bindOk] at h
        rw [pyGetN_append_ok t h1, bindOk, pyGetN_append_ok t h2, bindOk,
          pyGetN_append_ok t h3, bindOk]
        by_cases hz : b1 ||| (b2 <<< 8) ||| (b3 <<< 16) = 0
        · rw [if_pos hz] at h ⊢
          cases h4 : pyGetN s 4 with
          | error e => rw [h4, bindErr] at h; exact absurd h (by simp)
          | ok c0 =>
            rw [h4, bindOk] at h
            cases h5 : pyGetN s 5 with
            | error e => rw [h5, bindErr] at h; exact absurd h (by simp)
            | ok c1 =>
              rw [h5, bindOk] at h
              cases h6 : pyGetN s 6 with
              | error e => rw [h6, bindErr] at h; exact absurd h (by simp)
              | ok c2 =>
                rw [h6, bindOk] at h
                cases h7 : pyGetN s 7 with
                | error e => rw [h7, bindErr] at h; exact absurd h (by simp)
                | ok c3 =>
                  rw [h7, bindOk] at h
                  rw [pyGetN_append_ok t h4, bindOk, pyGetN_append_ok t h5, bindOk,
                    pyGetN_append_ok t h6, bindOk, pyGetN_append_ok t h7, bindOk]
                  exact h
        · rw [if_neg hz] at h ⊢
          exact h

/-- Extending a stream that was exhausted mid-decode: the decode of
`s ++ ext` agrees with the decode of `s` on everything `s` produced. -/
theorem dl_append (s ext : List Nat) (L : Nat) :
    ∀ f1 f2 : Nat, f1 ≤ f2 →
    ∀ (buf : List Nat) (oi off : Nat) (b1 : List Nat) (oi1 off1 : Nat)
      (b2 : List Nat) (oi2 off2 : Nat),
    decodeLoop s s.length L f1 buf oi off = .ok (b1, oi1, off1) →
    oi1 < L →
    decodeLoop (s ++ ext) (s ++ ext).length L f2 buf oi off = .ok (b2, oi2, off2) →
    oi1 ≤ oi2 ∧ ∀ i : Nat, i < oi1 → b2.getD i 0 = b1.getD i 0 := by
  intro f1
  induction f1 with
  | zero =>
    intro f2 _ buf oi off b1 oi1 off1 b2 oi2 off2 h1 _ h2
    rw [dl_zero] at h1
    simp only [Except.ok.injEq, Prod.mk.injEq] at h1
    obtain ⟨rfl, rfl, rfl⟩ := h1
    obtain ⟨hoi2, _, _, hout2⟩ := dl_spec (s ++ ext) _ L f2 _ _ _ _ _ _ h2
    exact ⟨hoi2, fun i hi => hout2 i (Or.inl hi)⟩
  | succ f1 ih =>
    intro f2 hf buf oi off b1 oi1 off1 b2 oi2 off2 h1 hoi1 h2
    by_cases hc : oi < L ∧ off < s.length
    · have hc2 : oi < L ∧ off < (s ++ ext).length := by
        simp only [List.length_append]
        omega
      cases f2 with
      | zero => omega
      | succ f2 =>
        rw [dl_step hc] at h1
        rw [dl_step hc2] at h2
        cases hflag : pyGetN s off with
        | error e => rw [hflag, bindErr] at h1; exact absurd h1 (by simp)
        | ok flags =>
          rw [hflag] at h1
          simp only [bindOk] at h1
          rw [pyGetN_append_ok ext hflag] at h2
          simp only [bindOk] at h2
          cases hpb : processBits s s.length L flags 8 buf oi (off + 1) with
          | error e => rw [hpb, bindErr] at h1; exact absurd h1 (by simp)
          | ok trip =>
            obtain ⟨bA, oiA, offA⟩ := trip
            rw [hpb] at h1
            simp only [bindOk] at h1
            rcases pb_append s ext L flags 8 buf oi (off + 1) bA oiA offA hpb
              with hsame | ⟨hof, hrest⟩
            · rw [hsame] at h2
              simp only [bindOk] at h2
              exact ih f2 (by omega) bA oiA offA b1 oi1 off1 b2 oi2 off2 h1 hoi1 h2
            · rw [dl_stop hof f1] at h1
              simp only [Except.ok.injEq, Prod.mk.injEq] at h1
              obtain ⟨rfl, rfl, rfl⟩ := h1
              cases hpb2 : processBits (s ++ ext) (s ++ ext).length L flags 8 buf oi (off + 1) with
              | error e => rw [hpb2, bindErr] at h2; exact absurd h2 (by simp)
              | ok trip2 =>
                obtain ⟨bB, oiB, offB⟩ := trip2
                rw [hpb2] at h2
                simp only [bindOk] at h2
                obtain ⟨hoiB, hiB⟩ := hrest bB oiB offB hpb2
                obtain ⟨hoi2, _, _, hout2⟩ := dl_spec (s ++ ext) _ L f2 _ _ _ _ _ _ h2
                refine ⟨by omega, fun i hi => ?_⟩
                rw [hout2 i (Or.inl (by omega)), hiB i hi]
    · rw [dl_stop_cond hc] at h1
      simp only [Except.ok.injEq, Prod.mk.injEq] at h1
      obtain ⟨rfl, rfl, rfl⟩ := h1
      obtain ⟨hoi2, _, _, hout2⟩ := dl_spec (s ++ ext) _ L f2 _ _ _ _ _ _ h2
      exact ⟨hoi2, fun i hi => hout2 i (Or.inl hi)⟩

/-! ### Claim C4: truncated token section -/

/-- C4 (counterexample to the claim as stated): the stream `11 08 00 00 80 20`
has marker 0x11 and its token section ends (mid back-reference token) before
the declared 8 output bytes are produced, yet `UncompressLZ77` raises an
index error instead of terminating normally. -/
theorem c4_counterexample :
    UncompressLZ77 [0x11, 0x08, 0x00, 0x00, 0x80, 0x20] =
      Except.error PyErr.indexError := rfl

/-- C4 (amended): for every stream with marker 0x11 on which the decode loop
terminates normally with `outputIndex < outputLength` (truncation at a token
boundary — a mid-token truncation instead raises an index error, see the
counterexample), `UncompressLZ77` returns the decoded buffer, every byte at
index ≥ `outputIndex` is zero, and for every extension of the stream whose
decode also terminates normally the extended result agrees with it on the
first `outputIndex` bytes. -/
theorem c4_theorem (s ext : List Nat) (L st : Nat) (out : List Nat) (oi off : Nat)
    (out2 : List Nat) (oi2 off2 : Nat)
    (hm : pyGetN s 0 = .ok 0x11)
    (hh : GetUncompressedSize s = .ok (L, st))
    (hrun : decodeLoop s s.length L s.length (List.replicate L 0) 0 st =
      .ok (out, oi, off))
    (htrunc : oi < L)
    (hrun2 : decodeLoop (s ++ ext) (s ++ ext).length L (s ++ ext).length
      (List.replicate L 0) 0 st = .ok (out2, oi2, off2)) :
    UncompressLZ77 s = .ok out ∧
    (∀ i : Nat, oi ≤ i → out.getD i 0 = 0) ∧
    UncompressLZ77 (s ++ ext) = .ok out2 ∧
    oi ≤ oi2 ∧
    (∀ i : Nat, i < oi → out2.getD i 0 = out.getD i 0) := by
  refine ⟨?_, ?_, ?_, ?_⟩
  · unfold UncompressLZ77
    rw [hm, bindOk, if_neg (by simp), hh]
    simp only [bindOk]
    rw [hrun]
    simp only [bindOk]
    rfl
  · intro i hi
    obtain ⟨_, _, _, hout⟩ := dl_spec s s.length L s.length _ _ _ _ _ _ hrun
    rw [hout i (Or.inr hi), getD_replicate_zero]
  · unfold UncompressLZ77
    rw [pyGetN_append_ok ext hm, bindOk, if_neg (by simp),
      getUncompressedSize_append ext hh]
    simp only [bindOk]
    rw [hrun2]
    simp only [bindOk]
    rfl
  · exact dl_append s ext L s.length (s ++ ext).length (by simp) _ _ _ _ _ _ _ _ _
      hrun htrunc hrun2

theorem c4_witness :
    UncompressLZ77 [0x11, 0x08, 0x00, 0x00, 0x00, 0x41] =
        .ok [0x41, 0, 0, 0, 0, 0, 0, 0] ∧
    (∀ i : Nat, 1 ≤ i → ([0x41, 0, 0, 0, 0, 0, 0, 0] : List Nat).getD i 0 = 0) ∧
    UncompressLZ77 ([0x11, 0x08, 0x00, 0x00, 0x00, 0x41] ++ [0x00, 0x42]) =
        .ok [0x41, 0, 0x42, 0, 0, 0, 0, 0] ∧
    1 ≤ 3 ∧
    (∀ i : Nat, i < 1 →
      ([0x41, 0, 0x42, 0, 0, 0, 0, 0] : List Nat).getD i 0 =
        ([0x41, 0, 0, 0, 0, 0, 0, 0] : List Nat).getD i 0) :=
  c4_theorem [0x11, 0x08, 0x00, 0x00, 0x00, 0x41] [0x00, 0x42] 8 4
    [0x41, 0, 0, 0, 0, 0, 0, 0] 1 6 [0x41, 0, 0x42, 0, 0, 0, 0, 0] 3 8
    rfl rfl rfl (by decide) rfl

end LZ77
